import Mathlib

/-
Verification of the Thoughtful AI support-agent core (`app.py`).

The development shallowly embeds, over `List Char`:
  * the text normalizer `ThoughtfulAIAgent.normalize_text`,
  * the similarity machinery of CPython's `difflib` that
    `ThoughtfulAIAgent.find_best_match` calls through
    `difflib.get_close_matches(..., n=1, cutoff=threshold)`
    (`SequenceMatcher` with `isjunk=None` and `autojunk=True`),
  * `ThoughtfulAIAgent.find_best_match` and
    `ThoughtfulAIAgent.get_response`, together with the embedded catalog
    `THOUGHTFUL_AI_DATA` and the `FALLBACK_RESPONSES` list.

Modelling conventions:
  * Strings are `List Char`.  Python's Unicode classes are modelled by
    their ASCII cores (`Char.isWhitespace` for `\s` / `str.strip`,
    ASCII alphanumerics plus `_` for `\w`); every string occurring in
    the program is ASCII.
  * Float arithmetic of the ratios is modelled exactly over `ℚ`.
  * `random.choice` is modelled as an explicit selection-function
    parameter of `get_response`.
-/

namespace ThoughtfulAI

abbrev Str := List Char

/-! ## Normalizer (`app.py`, `normalize_text`) -/

/-- `\s` of Python's `re` and the character class used by `str.strip`,
restricted to its ASCII core. -/
def isSpaceCh (c : Char) : Bool := c.isWhitespace

/-- `\w` of Python's `re`, restricted to its ASCII core
`[a-zA-Z0-9_]`. -/
def isWordCh (c : Char) : Bool := c.isAlphanum || c == '_'

/-- `str.lower` (ASCII case folding). -/
def pyLower (s : Str) : Str := s.map Char.toLower

/-- `str.strip`: drop leading and trailing whitespace. -/
def pyStrip (s : Str) : Str :=
  ((s.dropWhile isSpaceCh).reverse.dropWhile isSpaceCh).reverse

/-- `re.sub(r'[^\w\s]', '', text)`: keep exactly the word characters and
the whitespace characters. -/
def keepWordOrSpace (s : Str) : Str := s.filter (fun c => isWordCh c || isSpaceCh c)

/-- `re.sub(r'\s+', ' ', text)`: replace every maximal run of whitespace
characters by a single `' '`. -/
def collapseSpaces : Str → Str
  | [] => []
  | [c] => [if isSpaceCh c then ' ' else c]
  | c :: d :: rest =>
    if isSpaceCh c && isSpaceCh d then collapseSpaces (d :: rest)
    else (if isSpaceCh c then ' ' else c) :: collapseSpaces (d :: rest)

/-- `ThoughtfulAIAgent.normalize_text`:
`text.lower().strip()`, then strip `[^\w\s]`, then collapse `\s+`. -/
def normalize_text (s : Str) : Str :=
  collapseSpaces (keepWordOrSpace (pyStrip (pyLower s)))

/-! ## `difflib.SequenceMatcher` (CPython, `isjunk=None`, `autojunk=True`)

`find_best_match` scores a candidate `x` against the normalized user
question `word` with `SequenceMatcher(None, x, word)`; in difflib's
naming, `a = x` is the first sequence and `b = word` the second.
`set_seq2`/`__chain_b` build `b2j`, mapping each element of `b` to the
ascending list of its indices in `b`; with `isjunk=None` the junk set
`bjunk` stays empty, and when `len(b) >= 200` the autojunk heuristic
deletes from `b2j` every "popular" element occurring more than
`len(b) // 100 + 1` times. -/

/-- The ascending list of indices at which `c` occurs in `b`, starting
from index `start` (the `b2j` entry built by `__chain_b`'s
`for i, elt in enumerate(b)` loop). -/
def positionsFrom (c : Char) : Nat → Str → List Nat
  | _, [] => []
  | i, d :: rest =>
    if d == c then i :: positionsFrom c (i + 1) rest
    else positionsFrom c (i + 1) rest

/-- All indices of `c` in `b`, ascending. -/
def positions (b : Str) (c : Char) : List Nat := positionsFrom c 0 b

/-- The autojunk popularity test of `__chain_b`: only applies when
`len(b) >= 200`, and flags elements with more than `len(b) // 100 + 1`
occurrences. -/
def isPopular (b : Str) (c : Char) : Bool :=
  decide (200 ≤ b.length) && decide (b.length / 100 + 1 < (positions b c).length)

/-- `b2j` after `__chain_b` with `isjunk=None`: the index lists of
`positions`, with popular elements deleted. -/
def b2j (b : Str) (c : Char) : List Nat :=
  if isPopular b c then [] else positions b c

/-- `bjunk` with `isjunk=None`: the empty set (autojunk fills only
`bpopular`, which `isbjunk` does not consult). -/
def bjunk : Char → Bool := fun _ => false

/-- `j2len.get(j, 0)` on the model of the Python dict as an association
list (later bindings are consed to the front, so the first hit is the
current binding). -/
def dictGet : List (Nat × Nat) → Nat → Nat
  | [], _ => 0
  | (k, v) :: rest, j => if k == j then v else dictGet rest j

/-- The inner loop of `find_longest_match` over `for j in b2j.get(a[i])`
(already restricted to `blo <= j < bhi`; the `continue`/`break` of the
Python loop are equivalent to this restriction because the index list is
ascending).  `k = newj2len[j] = j2len.get(j-1, 0) + 1`; Python's
`j2len.get(-1, 0)` for `j = 0` is modelled by the explicit `j == 0`
test.  The best triple is updated on `k > bestsize`; Python's `i-k+1`
and `j-k+1` are the truncated subtractions below (never actually
truncated, since a match of length `k` ending at `(i, j)` has
`k ≤ i+1` and `k ≤ j+1`). -/
def innerLoop (i : Nat) (prev : List (Nat × Nat)) :
    List Nat → List (Nat × Nat) → Nat × Nat × Nat → List (Nat × Nat) × (Nat × Nat × Nat)
  | [], new, best => (new, best)
  | j :: js, new, best =>
    let k := (if j == 0 then 0 else dictGet prev (j - 1)) + 1
    let best' := if best.2.2 < k then (i + 1 - k, j + 1 - k, k) else best
    innerLoop i prev js ((j, k) :: new) best'

/-- The outer loop of `find_longest_match` over `for i in range(alo, ahi)`,
threading `j2len` (as `prev`) and the best triple.  `a.getD i ' '` is
`a[i]`; every visited `i` is below `len(a)`. -/
def outerLoop (a : Str) (b2jf : Char → List Nat) (blo bhi : Nat) :
    List Nat → List (Nat × Nat) → Nat × Nat × Nat → Nat × Nat × Nat
  | [], _, best => best
  | i :: is, prev, best =>
    let js := ((b2jf (a.getD i ' ')).filter fun j => decide (blo ≤ j)).filter
        fun j => decide (j < bhi)
    let r := innerLoop i prev js [] best
    outerLoop a b2jf blo bhi is r.1 r.2

/-- One of the `while besti > alo and bestj > blo and junkTest(b[bestj-1])
and a[besti-1] == b[bestj-1]` extension loops of `find_longest_match`
(`junkTest` is `not isbjunk` for the first pair of loops and `isbjunk`
for the second pair).  The recursion is structural in `besti`, which the
loop decrements; at `besti = 0` the condition `besti > alo` is false and
the loop exits, exactly as below. -/
def extLeft (a b : Str) (alo blo : Nat) (junkTest : Char → Bool) :
    Nat → Nat → Nat → Nat × Nat × Nat
  | 0, bj, bs => (0, bj, bs)
  | bi + 1, bj, bs =>
    if alo < bi + 1 ∧ blo < bj ∧ junkTest (b.getD (bj - 1) ' ') = true ∧
        a.getD (bi + 1 - 1) ' ' = b.getD (bj - 1) ' ' then
      extLeft a b alo blo junkTest bi (bj - 1) (bs + 1)
    else (bi + 1, bj, bs)

/-- The matching right-extension loop
(`while besti+bestsize < ahi and ...: bestsize += 1`), made structural in
the distance `d = ahi - (besti + bestsize)`, which each iteration
decrements; the loop guard `besti+bestsize < ahi` keeps `d` positive, so
the two exit conditions coincide. -/
def extRightAux (a b : Str) (ahi bhi : Nat) (junkTest : Char → Bool) (bi bj : Nat) :
    Nat → Nat → Nat
  | 0, bs => bs
  | d + 1, bs =>
    if bi + bs < ahi ∧ bj + bs < bhi ∧ junkTest (b.getD (bj + bs) ' ') = true ∧
        a.getD (bi + bs) ' ' = b.getD (bj + bs) ' ' then
      extRightAux a b ahi bhi junkTest bi bj d (bs + 1)
    else bs

def extRight (a b : Str) (ahi bhi : Nat) (junkTest : Char → Bool) (bi bj bs : Nat) : Nat :=
  extRightAux a b ahi bhi junkTest bi bj (ahi - (bi + bs)) bs

/-- `SequenceMatcher.find_longest_match(alo, ahi, blo, bhi)`: the
dynamic-programming search for the longest `b2j`-visible match, then the
four extension loops (non-junk left, non-junk right, junk left, junk
right).  Since `bjunk` is empty here, the junk loops never fire, but they
are kept for fidelity. -/
def find_longest_match (a b : Str) (b2jf : Char → List Nat) (alo ahi blo bhi : Nat) :
    Nat × Nat × Nat :=
  let best := outerLoop a b2jf blo bhi (List.range' alo (ahi - alo)) [] (alo, blo, 0)
  let e1 := extLeft a b alo blo (fun c => !bjunk c) best.1 best.2.1 best.2.2
  let s2 := extRight a b ahi bhi (fun c => !bjunk c) e1.1 e1.2.1 e1.2.2
  let e3 := extLeft a b alo blo bjunk e1.1 e1.2.1 s2
  let s4 := extRight a b ahi bhi bjunk e3.1 e3.2.1 e3.2.2
  (e3.1, e3.2.1, s4)

/-- The total size of the matching blocks of
`SequenceMatcher.get_matching_blocks`, which repeatedly takes the
longest match of a region and recurses on the left and right remainders
(the queue in the CPython code enumerates exactly this recursion tree,
and its guards `alo < i and blo < j` / `i+k < ahi and j+k < bhi` are the
two `if`s below; sorting and merging adjacent blocks do not change the
total size, and the terminal dummy block has size 0).  The recursion is
driven by `fuel`; every top-level call supplies more fuel than the
recursion depth, which is bounded by the extent of the region. -/
def matching_blocks_sum (a b : Str) (b2jf : Char → List Nat) :
    Nat → Nat → Nat → Nat → Nat → Nat
  | 0, _, _, _, _ => 0
  | fuel + 1, alo, ahi, blo, bhi =>
    let m := find_longest_match a b b2jf alo ahi blo bhi
    let i := m.1
    let j := m.2.1
    let k := m.2.2
    if k == 0 then 0
    else
      (if alo < i ∧ blo < j then matching_blocks_sum a b b2jf fuel alo i blo j else 0) + k +
        (if i + k < ahi ∧ j + k < bhi then matching_blocks_sum a b b2jf fuel (i + k) ahi (j + k) bhi
         else 0)

/-- `difflib._calculate_ratio(matches, length)`:
`2.0 * matches / length`, and `1.0` for `length = 0`; modelled exactly
over `ℚ`. -/
def calculate_ratio (nmatch length : Nat) : ℚ :=
  if length == 0 then 1 else (2 * nmatch : ℚ) / (length : ℚ)

/-- The `SequenceMatcher` ratio machinery over a given `b2j` table. -/
def ratio_with (b2jf : Char → List Nat) (a b : Str) : ℚ :=
  calculate_ratio
    (matching_blocks_sum a b b2jf (a.length + b.length + 1) 0 a.length 0 b.length)
    (a.length + b.length)

/-- `SequenceMatcher(None, a, b).ratio()` — with the autojunk-filtered
`b2j`, as the program uses it. -/
def ratio (a b : Str) : ℚ := ratio_with (b2j b) a b

/-- The similarity ratio as the specification states it: the pure
Ratcliff/Obershelp gestalt measure — repeatedly locate the longest
matching block (earliest in `a`, then in `b`), recurse on the unmatched
left and right remainders, sum the block sizes `M`, and take
`2*M / (len a + len b)`.  This is `ratio_with` over the unfiltered index
table: no autojunk. -/
def gestalt_ratio (a b : Str) : ℚ := ratio_with (positions b) a b

/-- `fullbcount.get(elt, 0)` of `quick_ratio`: the number of occurrences
of `c` in `b`. -/
def bcount (b : Str) (c : Char) : Nat := b.count c

/-- `avail.get` of the `quick_ratio` loop (the dict is modelled as an
association list with the current binding in front; values are `Int`
because Python lets them go negative). -/
def availGet : List (Char × Int) → Char → Option Int
  | [], _ => none
  | (d, v) :: rest, c => if d == c then some v else availGet rest c

/-- The counting loop of `SequenceMatcher.quick_ratio`:
`numb = avail[elt] if elt in avail else fullbcount.get(elt, 0);
avail[elt] = numb - 1; if numb > 0: matches += 1`. -/
def quickLoop (fullb : Char → Nat) : Str → List (Char × Int) → Nat → Nat
  | [], _, acc => acc
  | c :: rest, avail, acc =>
    let numb : Int := match availGet avail c with
      | some v => v
      | none => (fullb c : Int)
    quickLoop fullb rest ((c, numb - 1) :: avail) (if 0 < numb then acc + 1 else acc)

/-- `SequenceMatcher.quick_ratio()`. -/
def quick_ratio (a b : Str) : ℚ :=
  calculate_ratio (quickLoop (bcount b) a [] 0) (a.length + b.length)

/-- `SequenceMatcher.real_quick_ratio()`. -/
def real_quick_ratio (a b : Str) : ℚ :=
  calculate_ratio (min a.length b.length) (a.length + b.length)

/-! ## `difflib.get_close_matches(word, possibilities, n=1, cutoff)` -/

/-- Python string comparison `x < y`: lexicographic on code points. -/
def strLt : Str → Str → Bool
  | [], [] => false
  | [], _ :: _ => true
  | _ :: _, [] => false
  | c :: cs, d :: ds => decide (c < d) || (decide (c = d) && strLt cs ds)

/-- Python tuple comparison `(r1, x1) < (r2, x2)` as `heapq.nlargest`
applies it to the `(score, candidate)` pairs. -/
def tupleLt (p q : ℚ × Str) : Bool :=
  decide (p.1 < q.1) || (decide (p.1 = q.1) && strLt p.2 q.2)

/-- The filtering loop of `get_close_matches`: keep `(s.ratio(), x)` for
every candidate that passes the three cutoff gates
`real_quick_ratio() >= cutoff and quick_ratio() >= cutoff and
ratio() >= cutoff`. -/
def closePool (word : Str) (poss : List Str) (cutoff : ℚ) : List (ℚ × Str) :=
  poss.filterMap fun x =>
    if decide (cutoff ≤ real_quick_ratio x word) && decide (cutoff ≤ quick_ratio x word) &&
        decide (cutoff ≤ ratio x word) then
      some (ratio x word, x)
    else none

/-- `heapq.nlargest(1, result)` as `_nlargest` special-cases it:
`max(iterable)` under tuple order, keeping the earlier element when two
compare equal in both components, `[]` when the list is empty. -/
def pymax1 : List (ℚ × Str) → Option (ℚ × Str)
  | [] => none
  | y :: ys => some (ys.foldl (fun best z => if tupleLt best z then z else best) y)

/-- `difflib.get_close_matches(word, possibilities, n=1, cutoff)`,
returning the single best match if any candidate survives the cutoff. -/
def get_close_matches1 (word : Str) (poss : List Str) (cutoff : ℚ) : Option Str :=
  (pymax1 (closePool word poss cutoff)).map (·.2)

/-! ## The application (`app.py`) -/

/-- The embedded catalog `THOUGHTFUL_AI_DATA["questions"]`, in order. -/
def THOUGHTFUL_AI_DATA : List (Str × Str) :=
  [(("What does the eligibility verification agent (EVA) do?").toList,
    ("EVA automates the process of verifying a patient's eligibility and benefits information in real-time, eliminating manual data entry errors and reducing claim rejections.").toList),
   (("What does the claims processing agent (CAM) do?").toList,
    ("CAM streamlines the submission and management of claims, improving accuracy, reducing manual intervention, and accelerating reimbursements.").toList),
   (("How does the payment posting agent (PHIL) work?").toList,
    ("PHIL automates the posting of payments to patient accounts, ensuring fast, accurate reconciliation of payments and reducing administrative burden.").toList),
   (("Tell me about Thoughtful AI's Agents.").toList,
    ("Thoughtful AI provides a suite of AI-powered automation agents designed to streamline healthcare processes. These include Eligibility Verification (EVA), Claims Processing (CAM), and Payment Posting (PHIL), among others.").toList),
   (("What are the benefits of using Thoughtful AI's agents?").toList,
    ("Using Thoughtful AI's Agents can significantly reduce administrative costs, improve operational efficiency, and reduce errors in critical processes like claims management and payment posting.").toList)]

/-- `FALLBACK_RESPONSES`. -/
def FALLBACK_RESPONSES : List Str :=
  [("I'm a specialized assistant for Thoughtful AI's healthcare automation agents. I can help you learn about EVA, CAM, PHIL, and other Thoughtful AI services. Could you ask me something specific about our agents?").toList,
   ("I'm designed to assist with questions about Thoughtful AI's automation solutions. Please feel free to ask about our healthcare agents like EVA, CAM, or PHIL.").toList,
   ("I specialize in information about Thoughtful AI's healthcare automation agents. How can I help you learn more about our solutions?").toList]

/-- `self.questions`: the catalog questions, in order. -/
def questions : List Str := THOUGHTFUL_AI_DATA.map (·.1)

/-- `self.qa_dict[q]`: the stored answer of a catalog question (`none`
models the `KeyError` case; the catalog questions are pairwise distinct,
so the first-hit lookup agrees with the Python dict built by
comprehension). -/
def qa_dict (q : Str) : Option Str :=
  (THOUGHTFUL_AI_DATA.find? fun p => p.1 == q).map (·.2)

/-- The tail of `ThoughtfulAIAgent.find_best_match` after the `difflib`
call: `if matches:` recover the first catalog question whose normalized
form is the returned match (`normalized_questions.index(matches[0])`)
and its stored answer, else `return None, None`.  The two `none`
fallthroughs model the only two statements of the `try` block that can
raise (`list.index` raising `ValueError` and `self.qa_dict[...]` raising
`KeyError`, both impossible here): the `except` clause turns any such
failure into `(None, None)`. -/
def answer_of (oq : Str) : Option Str × Option Str :=
  match qa_dict oq with
  | some a => (some oq, some a)
  | none => (none, none)

def resolve_match : Option Str → Option Str × Option Str
  | some m =>
    match questions.get? ((questions.map normalize_text).findIdx fun q => q == m) with
    | some oq => answer_of oq
    | none => (none, none)
  | none => (none, none)

/-- `ThoughtfulAIAgent.find_best_match(user_question, threshold)`. -/
def find_best_match (user : Str) (threshold : ℚ) : Option Str × Option Str :=
  resolve_match
    (get_close_matches1 (normalize_text user) (questions.map normalize_text) threshold)

/-- The fixed prompt returned for empty input. -/
def promptMessage : Str :=
  ("Please ask me a question about Thoughtful AI's healthcare automation agents.").toList

/-- `ThoughtfulAIAgent.get_response(user_question)`.  The draw
`random.choice(FALLBACK_RESPONSES)` is modelled by the explicit
selection function `choice`; `if answer:` is Python truthiness (`None`
and the empty string are falsy). -/
def get_response (choice : List Str → Str) (user : Str) : Str :=
  if user = [] ∨ pyStrip user = [] then promptMessage
  else
    let r := find_best_match user (2 / 5)
    match r.2 with
    | some a => if a = [] then choice FALLBACK_RESPONSES else a
    | none => choice FALLBACK_RESPONSES

/-! ## Specification-side predicates used by the proofs -/

/-- The characters a `normalize_text` image is made of: single spaces and
lower-case-stable word characters. -/
def NormalChar (c : Char) : Prop :=
  c = ' ' ∨ (isWordCh c = true ∧ c.toLower = c)

/-- No two adjacent whitespace characters. -/
def SpacedOk : Str → Prop :=
  List.Chain' fun c d => ¬(isSpaceCh c = true ∧ isSpaceCh d = true)

/-- `a[i:i+k] = b[j:j+k]`, elementwise. -/
def blockEq (a b : Str) (i j k : Nat) : Prop :=
  ∀ u, u < k → a.get? (i + u) = b.get? (j + u)

/-- A well-formed matching triple `(i, j, k)` for the search region
`[alo, ahi) × [blo, bhi)`: in bounds and an actual common block. -/
def GoodT (a b : Str) (alo ahi blo bhi i j k : Nat) : Prop :=
  alo ≤ i ∧ blo ≤ j ∧ i + k ≤ ahi ∧ j + k ≤ bhi ∧ blockEq a b i j k

/-- Invariant of the `j2len` dict in the outer loop about to process row
`i`: an entry `(j, v)` records a common block of length `v` ending at row
`i - 1` and column `j`, inside the region. -/
def PrevOK (a b : Str) (alo blo bhi i : Nat) (m : List (Nat × Nat)) : Prop :=
  ∀ p ∈ m, 1 ≤ p.2 ∧ blo + p.2 ≤ p.1 + 1 ∧ p.1 < bhi ∧ alo + p.2 ≤ i ∧
    blockEq a b (i - p.2) (p.1 + 1 - p.2) p.2

/-- The number of common elements of two strings counted with
multiplicity (the multiset-intersection cardinality that
`quick_ratio` computes). -/
def interCard (s u : Str) : Nat := Multiset.card ((s : Multiset Char) ∩ (u : Multiset Char))

/-- `s[lo:hi]`. -/
def slice (s : Str) (lo hi : Nat) : Str := (s.drop lo).take (hi - lo)

/-! ## Facts about the normalizer -/

theorem toLower_toLower (c : Char) : c.toLower.toLower = c.toLower := by
  simp only [Char.toLower]
  by_cases h : c.toNat ≥ 65 ∧ c.toNat ≤ 90
  · rw [if_pos h]
    have hv : Nat.isValidChar (c.toNat + 32) := Or.inl (by omega)
    have ht : (Char.ofNat (c.toNat + 32)).toNat = c.toNat + 32 := by
      rw [Char.ofNat, dif_pos hv]
      rfl
    rw [if_neg (by rw [ht]; omega)]
  · rw [if_neg h, if_neg h]

theorem isSpaceCh_false_of_isWordCh {c : Char} (h : isWordCh c = true) : isSpaceCh c = false := by
  by_contra h'
  have hsp : isSpaceCh c = true := by
    cases hc : isSpaceCh c
    · exact absurd hc h'
    · rfl
  have : c = ' ' ∨ c = '\t' ∨ c = '\r' ∨ c = '\n' := by
    simpa [isSpaceCh, Char.isWhitespace, or_assoc] using hsp
  rcases this with rfl | rfl | rfl | rfl <;> simp [isWordCh] at h

theorem mem_collapseSpaces :
    ∀ (s : Str) (c : Char), c ∈ collapseSpaces s → c = ' ' ∨ (c ∈ s ∧ isSpaceCh c = false)
  | [], c, h => by simp [collapseSpaces] at h
  | [d], c, h => by
    simp only [collapseSpaces, List.mem_singleton] at h
    subst h
    cases hd : isSpaceCh d
    · right
      simp [hd]
    · left
      simp [hd]
  | d :: e :: r, c, h => by
    simp only [collapseSpaces] at h
    split at h
    · rcases mem_collapseSpaces (e :: r) c h with h' | ⟨h', h''⟩
      · exact Or.inl h'
      · exact Or.inr ⟨List.mem_cons_of_mem d h', h''⟩
    · rcases List.mem_cons.mp h with h' | h'
      · subst h'
        cases hd : isSpaceCh d
        · right
          simp [hd]
        · left
          simp [hd]
      · rcases mem_collapseSpaces (e :: r) c h' with h'' | ⟨h'', h'''⟩
        · exact Or.inl h''
        · exact Or.inr ⟨List.mem_cons_of_mem d h'', h'''⟩

theorem collapseSpaces_cons_head :
    ∀ (d : Char) (r : Str), ∃ t, collapseSpaces (d :: r) = (if isSpaceCh d then ' ' else d) :: t
  | d, [] => ⟨[], rfl⟩
  | d, e :: r => by
    simp only [collapseSpaces]
    split
    · rename_i hde
      obtain ⟨t, ht⟩ := collapseSpaces_cons_head e r
      refine ⟨t, ?_⟩
      rw [ht]
      have hd : isSpaceCh d = true := by
        cases hd : isSpaceCh d
        · simp [hd] at hde
        · rfl
      have he : isSpaceCh e = true := by
        cases he : isSpaceCh e
        · simp [he] at hde
        · rfl
      rw [if_pos hd, if_pos he]
    · exact ⟨_, rfl⟩

theorem spacedOk_collapseSpaces : ∀ s : Str, SpacedOk (collapseSpaces s)
  | [] => List.chain'_nil
  | [d] => List.chain'_singleton _
  | d :: e :: r => by
    simp only [collapseSpaces]
    split
    · exact spacedOk_collapseSpaces (e :: r)
    · rename_i hde
      obtain ⟨t, ht⟩ := collapseSpaces_cons_head e r
      rw [ht]
      refine List.chain'_cons.mpr ⟨?_, ht ▸ spacedOk_collapseSpaces (e :: r)⟩
      rintro ⟨h1, h2⟩
      apply hde
      cases hd : isSpaceCh d
      · rw [if_neg (by simp [hd])] at h1
        rw [hd] at h1
        simp [isSpaceCh] at h1
      · cases he : isSpaceCh e
        · rw [if_neg (by simp [he])] at h2
          rw [he] at h2
          simp [isSpaceCh] at h2
        · simp [hd, he]

theorem collapseSpaces_eq_self :
    ∀ s : Str, (∀ c ∈ s, isSpaceCh c = true → c = ' ') → SpacedOk s → collapseSpaces s = s
  | [], _, _ => rfl
  | [d], h, _ => by
    simp only [collapseSpaces]
    cases hd : isSpaceCh d
    · rw [if_neg (by simp [hd])]
    · rw [if_pos (by simp [hd]), h d (List.mem_singleton_self d) hd]
  | d :: e :: r, h, hsp => by
    have hde : ¬(isSpaceCh d = true ∧ isSpaceCh e = true) := (List.chain'_cons.mp hsp).1
    have htl : SpacedOk (e :: r) := (List.chain'_cons.mp hsp).2
    have hrec : collapseSpaces (e :: r) = e :: r :=
      collapseSpaces_eq_self (e :: r) (fun c hc => h c (List.mem_cons_of_mem d hc)) htl
    simp only [collapseSpaces]
    rw [if_neg (by simpa using hde), hrec]
    cases hd : isSpaceCh d
    · rw [if_neg (by simp [hd])]
    · rw [if_pos (by simp [hd]), h d (List.mem_cons_self d (e :: r)) hd]

theorem pyStrip_subset (s : Str) : pyStrip s ⊆ s := by
  intro c hc
  simp only [pyStrip] at hc
  rw [List.mem_reverse] at hc
  have h1 := (List.dropWhile_sublist isSpaceCh).subset hc
  rw [List.mem_reverse] at h1
  exact (List.dropWhile_sublist isSpaceCh).subset h1

theorem pyLower_eq_self {s : Str} (h : ∀ c ∈ s, c.toLower = c) : pyLower s = s := by
  simp only [pyLower]
  rw [List.map_congr_left h]
  simp

theorem spacedOk_dropWhile {s : Str} (h : SpacedOk s) : SpacedOk (s.dropWhile isSpaceCh) := by
  obtain ⟨pre, hpre⟩ := @List.dropWhile_suffix _ s isSpaceCh
  rw [← hpre] at h
  exact (List.chain'_append.mp h).2.1

theorem spacedOk_reverse {s : Str} (h : SpacedOk s) : SpacedOk s.reverse := by
  rw [SpacedOk, List.chain'_reverse]
  exact h.imp fun a b hab => by
    rw [Function.flip_def]
    tauto

theorem spacedOk_pyStrip {s : Str} (h : SpacedOk s) : SpacedOk (pyStrip s) :=
  spacedOk_reverse (spacedOk_dropWhile (spacedOk_reverse (spacedOk_dropWhile h)))

/-- On a string already in normal form, `normalize_text` only strips. -/
theorem normalize_text_of_normal {y : Str} (hchar : ∀ c ∈ y, NormalChar c)
    (hsp : SpacedOk y) : normalize_text y = pyStrip y := by
  have hlow : pyLower y = y := pyLower_eq_self fun c hc => by
    rcases hchar c hc with rfl | ⟨-, h⟩
    · rfl
    · exact h
  have hsub : pyStrip y ⊆ y := pyStrip_subset y
  have hkeep : keepWordOrSpace (pyStrip y) = pyStrip y := by
    rw [keepWordOrSpace, List.filter_eq_self]
    intro c hc
    rcases hchar c (hsub hc) with rfl | ⟨h, -⟩
    · rfl
    · simp [h]
  have hcoll : collapseSpaces (pyStrip y) = pyStrip y := by
    refine collapseSpaces_eq_self _ (fun c hc hspc => ?_) (spacedOk_pyStrip hsp)
    rcases hchar c (hsub hc) with rfl | ⟨hw, -⟩
    · rfl
    · rw [isSpaceCh_false_of_isWordCh hw] at hspc
      cases hspc
  rw [normalize_text, hlow, hkeep, hcoll]

theorem normalChar_normalize_text (x : Str) : ∀ c ∈ normalize_text x, NormalChar c := by
  intro c hc
  rcases mem_collapseSpaces _ c hc with h | ⟨hmem, hns⟩
  · exact Or.inl h
  · right
    have hmem' : c ∈ List.filter (fun c => isWordCh c || isSpaceCh c) (pyStrip (pyLower x)) :=
      hmem
    have hw : (isWordCh c || isSpaceCh c) = true := (List.mem_filter.mp hmem').2
    have hwc : isWordCh c = true := by
      rcases (Bool.or_eq_true _ _).mp hw with h' | h'
      · exact h'
      · rw [hns] at h'
        cases h'
    refine ⟨hwc, ?_⟩
    have hc2 : c ∈ pyLower x := pyStrip_subset _ (List.mem_of_mem_filter hmem)
    obtain ⟨d, -, rfl⟩ := List.mem_map.mp hc2
    exact toLower_toLower d

theorem getLast?_dropWhile_of_ne_nil {α : Type} {p : α → Bool} {w : List α}
    (h : w.dropWhile p ≠ []) : (w.dropWhile p).getLast? = w.getLast? := by
  obtain ⟨pre, hpre⟩ := @List.dropWhile_suffix _ w p
  conv_rhs => rw [← hpre]
  rw [List.getLast?_append]
  cases hdl : (w.dropWhile p).getLast? with
  | none => exact absurd (List.getLast?_eq_none_iff.mp hdl) h
  | some x => rfl

theorem pyStrip_head? (s : Str) : ∀ c ∈ (pyStrip s).head?, isSpaceCh c = false := by
  intro c hc
  rw [Option.mem_def] at hc
  simp only [pyStrip, List.head?_reverse] at hc
  have hne : (s.dropWhile isSpaceCh).reverse.dropWhile isSpaceCh ≠ [] := by
    intro hnil
    rw [hnil] at hc
    simp at hc
  rw [getLast?_dropWhile_of_ne_nil hne, List.getLast?_reverse] at hc
  have h2 := List.head?_dropWhile_not isSpaceCh s
  rw [hc] at h2
  exact h2

theorem pyStrip_getLast? (s : Str) : ∀ c ∈ (pyStrip s).getLast?, isSpaceCh c = false := by
  intro c hc
  rw [Option.mem_def] at hc
  simp only [pyStrip, List.getLast?_reverse] at hc
  have h2 := List.head?_dropWhile_not isSpaceCh (s.dropWhile isSpaceCh).reverse
  rw [hc] at h2
  exact h2

theorem pyStrip_eq_self {t : Str} (h1 : ∀ c ∈ t.head?, isSpaceCh c = false)
    (h2 : ∀ c ∈ t.getLast?, isSpaceCh c = false) : pyStrip t = t := by
  have hfwd : ∀ (w : Str), (∀ c ∈ w.head?, isSpaceCh c = false) → w.dropWhile isSpaceCh = w := by
    intro w hw
    cases w with
    | nil => rfl
    | cons c r =>
      have hx := hw c rfl
      rw [List.dropWhile_cons, if_neg (by simp [hx])]
  rw [pyStrip, hfwd t h1, hfwd t.reverse (by simpa using h2), List.reverse_reverse]

/-- C1, amended: `normalize_text` is not idempotent outright, but a
second application changes nothing further after the first two — the
second application exactly strips the leading/trailing whitespace the
first one can leave behind. -/
theorem C1_normalize_double_application_stable (x : Str) :
    normalize_text (normalize_text (normalize_text x)) = normalize_text (normalize_text x) := by
  have hy : ∀ c ∈ normalize_text x, NormalChar c := normalChar_normalize_text x
  have hysp : SpacedOk (normalize_text x) := spacedOk_collapseSpaces _
  have h1 : normalize_text (normalize_text x) = pyStrip (normalize_text x) :=
    normalize_text_of_normal hy hysp
  have hz : ∀ c ∈ pyStrip (normalize_text x), NormalChar c := fun c hc =>
    hy c (pyStrip_subset _ hc)
  have hzsp : SpacedOk (pyStrip (normalize_text x)) := spacedOk_pyStrip hysp
  have h2 : normalize_text (pyStrip (normalize_text x)) = pyStrip (pyStrip (normalize_text x)) :=
    normalize_text_of_normal hz hzsp
  have h3 : pyStrip (pyStrip (normalize_text x)) = pyStrip (normalize_text x) :=
    pyStrip_eq_self (pyStrip_head? _) (pyStrip_getLast? _)
  rw [h1, h2, h3]

/-- C1, counterexample: `normalize_text` is not idempotent — on `". a"`
the first pass strips before removing the dot, leaving `" a"`, and the
second pass strips again, giving `"a"`. -/
theorem C1_normalize_not_idempotent :
    normalize_text (normalize_text ((". a").toList)) ≠ normalize_text ((". a").toList) := by
  decide

/-! ## C2: the score used by `find_best_match` vs the spec's gestalt ratio -/

theorem b2j_eq_positions_of_short {b : Str} (h : b.length < 200) : b2j b = positions b := by
  funext c
  rw [b2j, if_neg]
  rw [isPopular]
  simp only [Bool.and_eq_true, decide_eq_true_eq, not_and]
  intro h200
  omega

/-- C2, amended: the similarity score used by `find_best_match` equals the
Ratcliff/Obershelp gestalt ratio of the spec whenever the normalized user
question (difflib's second sequence) is shorter than 200 characters, so
that the library's autojunk heuristic is inert; for longer second
sequences autojunk may drop popular characters and change the score. -/
theorem C2_ratio_eq_gestalt_of_short (a b : Str) (h : b.length < 200) :
    ratio a b = gestalt_ratio a b := by
  rw [ratio, gestalt_ratio, b2j_eq_positions_of_short h]

/-- Witness for `C2_ratio_eq_gestalt_of_short` at a concrete pair. -/
theorem C2_ratio_eq_gestalt_of_short_witness :
    (("tell me about eva").toList : Str).length < 200 ∧
      ratio (("what does eva do").toList) (("tell me about eva").toList) =
        gestalt_ratio (("what does eva do").toList) (("tell me about eva").toList) :=
  ⟨by decide, C2_ratio_eq_gestalt_of_short _ _ (by decide)⟩

set_option maxRecDepth 8192 in
set_option maxHeartbeats 4000000 in
set_option maxRecDepth 8192 in
set_option maxHeartbeats 4000000 in
unseal Rat.mul Rat.inv Rat.add Rat.sub in
/-- C2, counterexample: for the normalized strings `a = "xa"` and
`b = "y" ++ "a"*199` (length 200), autojunk removes the popular `'a'`
from `b2j`, the score drops to `0`, while the gestalt ratio is
`2*1/202 = 1/101`. -/
theorem C2_autojunk_counterexample :
    ratio (("xa").toList) ('y' :: List.replicate 199 'a') ≠
      gestalt_ratio (("xa").toList) ('y' :: List.replicate 199 'a') := by
  decide

/-! ## C7: empty input handling in `get_response` -/

theorem pyStrip_eq_nil_of_all_space {s : Str} (h : ∀ c ∈ s, isSpaceCh c = true) :
    pyStrip s = [] := by
  have h1 : s.dropWhile isSpaceCh = [] := List.dropWhile_eq_nil_iff.mpr h
  rw [pyStrip, h1]
  rfl

set_option maxRecDepth 4096 in
set_option maxHeartbeats 1000000 in
/-- C7: on empty or whitespace-only input, `get_response` returns the
fixed prompt string (for every fallback-selection function, i.e. without
consulting the matcher or the fallback set), and the prompt is not one
of the fallback strings. -/
theorem C7_empty_input_prompt (choice : List Str → Str) (s : Str)
    (h : ∀ c ∈ s, isSpaceCh c = true) :
    get_response choice s = promptMessage ∧ promptMessage ∉ FALLBACK_RESPONSES := by
  refine ⟨?_, by decide⟩
  rw [get_response, if_pos]
  exact Or.inr (pyStrip_eq_nil_of_all_space h)

set_option maxRecDepth 4096 in
set_option maxHeartbeats 1000000 in
/-- Witness for `C7_empty_input_prompt` at the whitespace-only input `"   "`. -/
theorem C7_empty_input_prompt_witness :
    get_response (fun _ => []) (("   ").toList) = promptMessage ∧
      promptMessage ∉ FALLBACK_RESPONSES :=
  C7_empty_input_prompt (fun _ => []) (("   ").toList) (by decide)

/-! ## C5: shape of the result of `find_best_match` -/

theorem answer_of_shape (oq : Str) :
    answer_of oq = (none, none) ∨ ∃ a, answer_of oq = (some oq, some a) ∧ qa_dict oq = some a := by
  rw [answer_of]
  cases ha : qa_dict oq with
  | none => exact Or.inl rfl
  | some a => exact Or.inr ⟨a, rfl, rfl⟩

theorem resolve_match_shape (gm : Option Str) :
    resolve_match gm = (none, none) ∨
      ∃ oq a, resolve_match gm = (some oq, some a) ∧ oq ∈ questions ∧
        qa_dict oq = some a := by
  cases gm with
  | none => exact Or.inl rfl
  | some m =>
    rw [resolve_match]
    cases hq : questions.get? ((questions.map normalize_text).findIdx fun q => q == m) with
    | none => exact Or.inl rfl
    | some oq =>
      rcases answer_of_shape oq with h | ⟨a, h1, h2⟩
      · exact Or.inl h
      · exact Or.inr ⟨oq, a, h1, List.get?_mem hq, h2⟩

/-- C5: `find_best_match` returns either `(None, None)` or a pair
`(some q, some a)` in which `q` is a catalog question and `a` is exactly
the answer the catalog stores for `q`; no mixed result is possible. -/
theorem C5_match_result_shape (user : Str) (t : ℚ) :
    find_best_match user t = (none, none) ∨
      ∃ oq a, find_best_match user t = (some oq, some a) ∧ oq ∈ questions ∧
        qa_dict oq = some a := by
  exact resolve_match_shape (get_close_matches1 (normalize_text user)
    (questions.map normalize_text) t)

/-! ## The tuple order used by `heapq.nlargest` -/

theorem strLt_irrefl : ∀ s : Str, strLt s s = false
  | [] => rfl
  | c :: cs => by
    rw [strLt, strLt_irrefl cs]
    simp

theorem strLt_trans : ∀ (x y z : Str), strLt x y = true → strLt y z = true → strLt x z = true
  | [], _ :: _, _ :: _, _, _ => rfl
  | [], [], _, h1, _ => by simp [strLt] at h1
  | [], _ :: _, [], _, h2 => by simp [strLt] at h2
  | _ :: _, [], _, h1, _ => by simp [strLt] at h1
  | _ :: _, _ :: _, [], _, h2 => by simp [strLt] at h2
  | c :: cs, d :: ds, e :: es, h1, h2 => by
    rw [strLt] at h1 h2 ⊢
    rcases (Bool.or_eq_true _ _).mp h1 with hlt1 | hand1
    · rcases (Bool.or_eq_true _ _).mp h2 with hlt2 | hand2
      · exact Or.inl (decide_eq_true (lt_trans (of_decide_eq_true hlt1)
          (of_decide_eq_true hlt2))) |> (Bool.or_eq_true _ _).mpr
      · obtain ⟨he, -⟩ := Bool.and_eq_true_iff.mp hand2
        exact (Bool.or_eq_true _ _).mpr
          (Or.inl (of_decide_eq_true he ▸ hlt1))
    · obtain ⟨he1, hs1⟩ := Bool.and_eq_true_iff.mp hand1
      rcases (Bool.or_eq_true _ _).mp h2 with hlt2 | hand2
      · exact (Bool.or_eq_true _ _).mpr
          (Or.inl ((of_decide_eq_true he1).symm ▸ hlt2))
      · obtain ⟨he2, hs2⟩ := Bool.and_eq_true_iff.mp hand2
        refine (Bool.or_eq_true _ _).mpr (Or.inr (Bool.and_eq_true_iff.mpr ⟨?_, ?_⟩))
        · exact decide_eq_true ((of_decide_eq_true he1).trans (of_decide_eq_true he2))
        · exact strLt_trans cs ds es hs1 hs2

theorem strLt_total : ∀ x y : Str, strLt x y = true ∨ x = y ∨ strLt y x = true
  | [], [] => Or.inr (Or.inl rfl)
  | [], _ :: _ => Or.inl rfl
  | _ :: _, [] => Or.inr (Or.inr rfl)
  | c :: cs, d :: ds => by
    rcases lt_trichotomy c d with hcd | hcd | hcd
    · exact Or.inl ((Bool.or_eq_true _ _).mpr (Or.inl (decide_eq_true hcd)))
    · subst hcd
      rcases strLt_total cs ds with h | h | h
      · exact Or.inl ((Bool.or_eq_true _ _).mpr
          (Or.inr (Bool.and_eq_true_iff.mpr ⟨decide_eq_true rfl, h⟩)))
      · exact Or.inr (Or.inl (by rw [h]))
      · exact Or.inr (Or.inr ((Bool.or_eq_true _ _).mpr
          (Or.inr (Bool.and_eq_true_iff.mpr ⟨decide_eq_true rfl, h⟩))))
    · exact Or.inr (Or.inr ((Bool.or_eq_true _ _).mpr (Or.inl (decide_eq_true hcd))))

theorem tupleLt_irrefl (p : ℚ × Str) : tupleLt p p = false := by
  rw [tupleLt, strLt_irrefl]
  simp

theorem tupleLt_trans {p q r : ℚ × Str} (h1 : tupleLt p q = true) (h2 : tupleLt q r = true) :
    tupleLt p r = true := by
  rw [tupleLt] at h1 h2 ⊢
  rcases (Bool.or_eq_true _ _).mp h1 with hlt1 | hand1
  · rcases (Bool.or_eq_true _ _).mp h2 with hlt2 | hand2
    · exact (Bool.or_eq_true _ _).mpr (Or.inl (decide_eq_true
        (lt_trans (of_decide_eq_true hlt1) (of_decide_eq_true hlt2))))
    · obtain ⟨he, -⟩ := Bool.and_eq_true_iff.mp hand2
      exact (Bool.or_eq_true _ _).mpr (Or.inl (of_decide_eq_true he ▸ hlt1))
  · obtain ⟨he1, hs1⟩ := Bool.and_eq_true_iff.mp hand1
    rcases (Bool.or_eq_true _ _).mp h2 with hlt2 | hand2
    · exact (Bool.or_eq_true _ _).mpr (Or.inl ((of_decide_eq_true he1).symm ▸ hlt2))
    · obtain ⟨he2, hs2⟩ := Bool.and_eq_true_iff.mp hand2
      refine (Bool.or_eq_true _ _).mpr (Or.inr (Bool.and_eq_true_iff.mpr ⟨?_, ?_⟩))
      · exact decide_eq_true ((of_decide_eq_true he1).trans (of_decide_eq_true he2))
      · exact strLt_trans _ _ _ hs1 hs2

theorem tupleLt_total (p q : ℚ × Str) : tupleLt p q = true ∨ p = q ∨ tupleLt q p = true := by
  rcases lt_trichotomy p.1 q.1 with hpq | hpq | hpq
  · exact Or.inl ((Bool.or_eq_true _ _).mpr (Or.inl (decide_eq_true hpq)))
  · rcases strLt_total p.2 q.2 with h | h | h
    · exact Or.inl ((Bool.or_eq_true _ _).mpr
        (Or.inr (Bool.and_eq_true_iff.mpr ⟨decide_eq_true hpq, h⟩)))
    · exact Or.inr (Or.inl (Prod.ext hpq h))
    · exact Or.inr (Or.inr ((Bool.or_eq_true _ _).mpr
        (Or.inr (Bool.and_eq_true_iff.mpr ⟨decide_eq_true hpq.symm, h⟩))))
  · exact Or.inr (Or.inr ((Bool.or_eq_true _ _).mpr (Or.inl (decide_eq_true hpq))))

/-- The `max` fold of `pymax1` returns an element of `acc :: l` that no
element of `acc :: l` exceeds in the tuple order. -/
theorem foldl_max_spec :
    ∀ (l : List (ℚ × Str)) (acc : ℚ × Str),
      (l.foldl (fun best z => if tupleLt best z then z else best) acc = acc ∨
        l.foldl (fun best z => if tupleLt best z then z else best) acc ∈ l) ∧
      tupleLt (l.foldl (fun best z => if tupleLt best z then z else best) acc) acc = false ∧
      ∀ z ∈ l, tupleLt (l.foldl (fun best z => if tupleLt best z then z else best) acc) z = false
  | [], acc => ⟨Or.inl rfl, tupleLt_irrefl acc, by simp⟩
  | z :: l, acc => by
    have step : (z :: l).foldl (fun best z => if tupleLt best z then z else best) acc =
        l.foldl (fun best z => if tupleLt best z then z else best)
          (if tupleLt acc z then z else acc) := rfl
    obtain ⟨ihmem, ihacc, ihall⟩ :=
      foldl_max_spec l (if tupleLt acc z then z else acc)
    rw [step]
    set r := l.foldl (fun best z => if tupleLt best z then z else best)
      (if tupleLt acc z then z else acc) with hr
    by_cases haz : tupleLt acc z = true
    · rw [if_pos haz] at ihmem ihacc
      have hrz : tupleLt r z = false := ihacc
      have hracc : tupleLt r acc = false := by
        cases hra : tupleLt r acc
        · rfl
        · rw [tupleLt_trans hra haz] at hrz
          cases hrz
      refine ⟨?_, hracc, ?_⟩
      · rcases ihmem with h | h
        · exact Or.inr (h ▸ List.mem_cons_self z l)
        · exact Or.inr (List.mem_cons_of_mem z h)
      · intro w hw
        rcases List.mem_cons.mp hw with rfl | hw'
        · exact hrz
        · exact ihall w hw'
    · have haz' : tupleLt acc z = false := by
        cases h : tupleLt acc z
        · rfl
        · exact absurd h haz
      rw [if_neg (by simp [haz'])] at ihmem ihacc
      refine ⟨?_, ihacc, ?_⟩
      · rcases ihmem with h | h
        · exact Or.inl h
        · exact Or.inr (List.mem_cons_of_mem z h)
      · intro w hw
        rcases List.mem_cons.mp hw with rfl | hw'
        · cases hrw : tupleLt r w
          · rfl
          · rcases tupleLt_total acc r with h1 | h1 | h1
            · rw [tupleLt_trans h1 hrw] at haz'
              cases haz'
            · rw [← h1] at hrw
              rw [hrw] at haz'
              cases haz'
            · rw [h1] at ihacc
              cases ihacc
        · exact ihall w hw'

/-- `pymax1` returns a maximum of the pool under the Python tuple order. -/
theorem pymax1_spec {l : List (ℚ × Str)} {y : ℚ × Str} (h : pymax1 l = some y) :
    y ∈ l ∧ ∀ z ∈ l, tupleLt y z = false := by
  cases l with
  | nil => cases h
  | cons z l =>
    rw [pymax1, Option.some_inj] at h
    obtain ⟨hmem, hacc, hall⟩ := foldl_max_spec l z
    subst h
    constructor
    · rcases hmem with h | h
      · rw [h]
        exact List.mem_cons_self z l
      · exact List.mem_cons_of_mem z h
    · intro w hw
      rcases List.mem_cons.mp hw with rfl | hw'
      · exact hacc
      · exact hall w hw'

/-! ## Membership in the cutoff pool -/

theorem mem_closePool {word : Str} {poss : List Str} {cutoff : ℚ} {rx : ℚ × Str}
    (h : rx ∈ closePool word poss cutoff) :
    rx.2 ∈ poss ∧ rx.1 = ratio rx.2 word ∧ cutoff ≤ real_quick_ratio rx.2 word ∧
      cutoff ≤ quick_ratio rx.2 word ∧ cutoff ≤ ratio rx.2 word := by
  obtain ⟨x, hx, hfx⟩ := List.mem_filterMap.mp h
  by_cases hg : (decide (cutoff ≤ real_quick_ratio x word) &&
      decide (cutoff ≤ quick_ratio x word) && decide (cutoff ≤ ratio x word)) = true
  · rw [if_pos hg, Option.some_inj] at hfx
    obtain ⟨⟨h1, h2⟩, h3⟩ :
        (decide (cutoff ≤ real_quick_ratio x word) = true ∧
          decide (cutoff ≤ quick_ratio x word) = true) ∧
          decide (cutoff ≤ ratio x word) = true := by
      rcases Bool.and_eq_true_iff.mp hg with ⟨h12, h3⟩
      exact ⟨Bool.and_eq_true_iff.mp h12, h3⟩
    subst hfx
    exact ⟨hx, rfl, of_decide_eq_true h1, of_decide_eq_true h2, of_decide_eq_true h3⟩
  · rw [if_neg hg] at hfx
    cases hfx

theorem mem_closePool_intro {word : Str} {poss : List Str} {cutoff : ℚ} {x : Str}
    (hx : x ∈ poss) (h1 : cutoff ≤ real_quick_ratio x word)
    (h2 : cutoff ≤ quick_ratio x word) (h3 : cutoff ≤ ratio x word) :
    (ratio x word, x) ∈ closePool word poss cutoff := by
  refine List.mem_filterMap.mpr ⟨x, hx, ?_⟩
  rw [if_pos]
  rw [Bool.and_eq_true_iff, Bool.and_eq_true_iff]
  exact ⟨⟨decide_eq_true h1, decide_eq_true h2⟩, decide_eq_true h3⟩

/-! ## Success shape of `find_best_match` -/

theorem qa_dict_isSome_of_mem {q : Str} (h : q ∈ questions) : ∃ a, qa_dict q = some a := by
  obtain ⟨p, hp, rfl⟩ := List.mem_map.mp h
  have hs : (THOUGHTFUL_AI_DATA.find? fun r => r.1 == p.1).isSome := by
    rw [List.find?_isSome]
    exact ⟨p, hp, by simp⟩
  obtain ⟨r, hr⟩ := Option.isSome_iff_exists.mp hs
  exact ⟨r.2, by rw [qa_dict, hr]; rfl⟩

theorem pymax1_isSome {l : List (ℚ × Str)} (h : l ≠ []) : ∃ y, pymax1 l = some y := by
  cases l with
  | nil => exact absurd rfl h
  | cons z zs => exact ⟨_, rfl⟩

/-- `resolve_match` on a match that is the normalized form of some
catalog question: `.index` finds the first such question, whose stored
answer exists. -/
theorem resolve_match_some_of_mem {m : Str} (hm : m ∈ questions.map normalize_text) :
    ∃ oq a, resolve_match (some m) = (some oq, some a) ∧ oq ∈ questions ∧
      normalize_text oq = m ∧ qa_dict oq = some a := by
  have hex : ∃ q ∈ questions.map normalize_text, (q == m) = true := ⟨m, hm, by simp⟩
  have hlt : (questions.map normalize_text).findIdx (fun q => q == m) <
      (questions.map normalize_text).length := List.findIdx_lt_length_of_exists hex
  have hlt' : (questions.map normalize_text).findIdx (fun q => q == m) <
      questions.length := by
    rw [List.length_map] at hlt
    exact hlt
  set idx := (questions.map normalize_text).findIdx (fun q => q == m) with hidx
  have hq : questions.get? idx = some (questions.get ⟨idx, hlt'⟩) := List.get?_eq_get hlt'
  have hpred : ((questions.map normalize_text).get ⟨idx, hlt⟩ == m) = true :=
    @List.findIdx_get _ _ _ hlt
  have hmap : (questions.map normalize_text).get ⟨idx, hlt⟩ =
      normalize_text (questions.get ⟨idx, hlt'⟩) := by
    rw [List.get_map]
  have hnorm : normalize_text (questions.get ⟨idx, hlt'⟩) = m := by
    rw [← hmap]
    exact eq_of_beq hpred
  obtain ⟨a, ha⟩ := qa_dict_isSome_of_mem (List.get_mem questions idx hlt')
  refine ⟨questions.get ⟨idx, hlt'⟩, a, ?_, List.get_mem questions idx hlt', hnorm, ha⟩
  rw [resolve_match, hq]
  show answer_of (questions.get ⟨idx, hlt'⟩) = _
  rw [answer_of, ha]

/-- Whenever the cutoff pool is nonempty, `find_best_match` succeeds and
returns the first catalog question whose normalized form is the
tuple-maximal pool entry, with its stored answer. -/
theorem fbm_of_pool {user : Str} {t : ℚ} {y : ℚ × Str}
    (hy : pymax1 (closePool (normalize_text user) (questions.map normalize_text) t) = some y) :
    ∃ oq a, find_best_match user t = (some oq, some a) ∧ normalize_text oq = y.2 ∧
      oq ∈ questions ∧ qa_dict oq = some a := by
  obtain ⟨hmem, hmax⟩ := pymax1_spec hy
  obtain ⟨hposs, -⟩ := mem_closePool hmem
  obtain ⟨oq, a, hra, hoqq, hnorm, hqa⟩ := resolve_match_some_of_mem hposs
  refine ⟨oq, a, ?_, hnorm, hoqq, hqa⟩
  rw [find_best_match, get_close_matches1, hy, Option.map_some']
  exact hra

/-! ## C8: threshold monotonicity -/

/-- C8: for a fixed user question, if `find_best_match` returns a match
at threshold `t2`, it also returns a match at any lower threshold
`t1 ≤ t2`; raising the threshold can only lose the match. -/
theorem C8_threshold_monotone (user : Str) (t1 t2 : ℚ) (h12 : t1 ≤ t2) (oq a : Str)
    (h : find_best_match user t2 = (some oq, some a)) :
    ∃ oq' a', find_best_match user t1 = (some oq', some a') := by
  have hne : closePool (normalize_text user) (questions.map normalize_text) t2 ≠ [] := by
    intro hnil
    rw [find_best_match, get_close_matches1, hnil] at h
    simp [pymax1, resolve_match] at h
  obtain ⟨z, hz⟩ := List.exists_mem_of_ne_nil _ hne
  obtain ⟨hposs, hzr, h1, h2, h3⟩ := mem_closePool hz
  have hmem1 : (ratio z.2 (normalize_text user), z.2) ∈
      closePool (normalize_text user) (questions.map normalize_text) t1 :=
    mem_closePool_intro hposs (le_trans h12 h1) (le_trans h12 h2) (le_trans h12 h3)
  have hne1 : closePool (normalize_text user) (questions.map normalize_text) t1 ≠ [] := by
    intro hnil
    rw [hnil] at hmem1
    cases hmem1
  obtain ⟨y, hy⟩ := pymax1_isSome hne1
  obtain ⟨oq', a', hfb, -, -, -⟩ := fbm_of_pool hy
  exact ⟨oq', a', hfb⟩

set_option maxRecDepth 100000 in
set_option maxHeartbeats 16000000 in
unseal Rat.mul Rat.inv Rat.add Rat.sub in
/-- Witness for `C8_threshold_monotone`: the match found at the default
threshold `2/5` persists at the lower threshold `1/5`. -/
theorem C8_threshold_monotone_witness :
    ∃ oq' a',
      find_best_match (("What does the claims processing agent (CAM) do?").toList) (1 / 5) =
        (some oq', some a') :=
  C8_threshold_monotone (("What does the claims processing agent (CAM) do?").toList)
    (1 / 5) (2 / 5) (by decide)
    (("What does the claims processing agent (CAM) do?").toList)
    (("CAM streamlines the submission and management of claims, improving accuracy, reducing manual intervention, and accelerating reimbursements.").toList)
    (by decide)

/-! ## C10: exact catalog questions round-trip through `get_response` -/

theorem get_response_of_match (choice : List Str → Str) {user : Str}
    {a : Str} (hne : ¬(user = [] ∨ pyStrip user = []))
    (h2 : (find_best_match user (2 / 5)).2 = some a) (ha : ¬a = []) :
    get_response choice user = a := by
  rw [get_response, if_neg hne]
  show (match (find_best_match user (2 / 5)).2 with
    | some a => if a = [] then choice FALLBACK_RESPONSES else a
    | none => choice FALLBACK_RESPONSES) = a
  rw [h2]
  exact if_neg ha

set_option maxRecDepth 100000 in
set_option maxHeartbeats 64000000 in
unseal Rat.mul Rat.inv Rat.add Rat.sub in
/-- C10: submitting any catalog question verbatim to `get_response`
returns exactly the answer the catalog stores for it, whatever the
fallback selection function does (the exact question scores ratio 1,
clears the default threshold 0.4, and its non-empty stored answer makes
the fallback branch unreachable). -/
theorem C10_exact_question_roundtrip (choice : List Str → Str) (q a : Str)
    (h : (q, a) ∈ THOUGHTFUL_AI_DATA) : get_response choice q = a := by
  simp only [THOUGHTFUL_AI_DATA, List.mem_cons, List.not_mem_nil, or_false] at h
  rcases h with h | h | h | h | h <;>
    (rw [Prod.mk.injEq] at h; obtain ⟨rfl, rfl⟩ := h)
  · exact get_response_of_match choice (by decide) (by decide) (by decide)
  · exact get_response_of_match choice (by decide) (by decide) (by decide)
  · exact get_response_of_match choice (by decide) (by decide) (by decide)
  · exact get_response_of_match choice (by decide) (by decide) (by decide)
  · exact get_response_of_match choice (by decide) (by decide) (by decide)

set_option maxRecDepth 100000 in
set_option maxHeartbeats 16000000 in
unseal Rat.mul Rat.inv Rat.add Rat.sub in
/-- Witness for `C10_exact_question_roundtrip` at the first catalog entry. -/
theorem C10_exact_question_roundtrip_witness :
    get_response (fun _ => [])
        (("What does the eligibility verification agent (EVA) do?").toList) =
      ("EVA automates the process of verifying a patient's eligibility and benefits information in real-time, eliminating manual data entry errors and reducing claim rejections.").toList :=
  C10_exact_question_roundtrip (fun _ => []) _ _ (by decide)

/-! ## C4, counterexample: the tie-break is not catalog order -/

set_option maxRecDepth 100000 in
set_option maxHeartbeats 64000000 in
unseal Rat.mul Rat.inv Rat.add Rat.sub in
/-- C4, counterexample: on the query `"using thoughtful"` at the default
threshold `0.4`, catalog entries 3 (`"Tell me about Thoughtful AI's
Agents."`) and 4 (`"What are the benefits of using Thoughtful AI's
agents?"`) are tied at the top ratio `8/17 ≥ 0.4`, yet `find_best_match`
returns entry 4, not the earlier entry 3: `heapq.nlargest` breaks the
tie towards the lexicographically greater normalized string, not towards
catalog order. -/
theorem C4_counterexample :
    questions.get? 3 = some (("Tell me about Thoughtful AI's Agents.").toList) ∧
      questions.get? 4 =
        some (("What are the benefits of using Thoughtful AI's agents?").toList) ∧
      ratio (normalize_text (("Tell me about Thoughtful AI's Agents.").toList))
          (normalize_text (("using thoughtful").toList)) =
        ratio (normalize_text (("What are the benefits of using Thoughtful AI's agents?").toList))
          (normalize_text (("using thoughtful").toList)) ∧
      (2 / 5 : ℚ) ≤
        ratio (normalize_text (("Tell me about Thoughtful AI's Agents.").toList))
          (normalize_text (("using thoughtful").toList)) ∧
      (∀ x ∈ questions.map normalize_text,
        ratio x (normalize_text (("using thoughtful").toList)) ≤
          ratio (normalize_text (("Tell me about Thoughtful AI's Agents.").toList))
            (normalize_text (("using thoughtful").toList))) ∧
      (find_best_match (("using thoughtful").toList) (2 / 5)).1 =
        some (("What are the benefits of using Thoughtful AI's agents?").toList) := by
  decide

/-! ## C3: the two quick-ratio gates are upper bounds on the ratio

`get_close_matches` only keeps a candidate if
`real_quick_ratio() >= cutoff and quick_ratio() >= cutoff and
ratio() >= cutoff`.  The claim that exactly the candidates with
`ratio < cutoff` are discarded therefore needs
`ratio ≤ quick_ratio ≤ real_quick_ratio`: the total size of the matching
blocks is at most the multiset-intersection size of the two strings,
which is at most the length of the shorter one.  The next sections prove
this by establishing that `find_longest_match` returns an actual common
block of its search region. -/

theorem blockEq_zero (a b : Str) (i j : Nat) : blockEq a b i j 0 :=
  fun u hu => absurd hu (Nat.not_lt_zero u)

theorem blockEq_snoc {a b : Str} {i j k : Nat} (h : blockEq a b i j k)
    (hk : a.get? (i + k) = b.get? (j + k)) : blockEq a b i j (k + 1) := by
  intro u hu
  rcases Nat.lt_succ_iff_lt_or_eq.mp hu with h' | rfl
  · exact h u h'
  · exact hk

theorem blockEq_cons {a b : Str} {i j k : Nat} (h0 : a.get? i = b.get? j)
    (h : blockEq a b (i + 1) (j + 1) k) : blockEq a b i j (k + 1) := by
  intro u hu
  cases u with
  | zero => simpa using h0
  | succ u' =>
    have h2 := h u' (Nat.lt_of_succ_lt_succ hu)
    rw [show i + (u' + 1) = i + 1 + u' by omega, show j + (u' + 1) = j + 1 + u' by omega]
    exact h2

theorem get?_eq_of_getD_eq {a b : Str} {i j : Nat} (hi : i < a.length) (hj : j < b.length)
    (h : a.getD i ' ' = b.getD j ' ') : a.get? i = b.get? j := by
  rw [List.getD_eq_get?, List.getD_eq_get?] at h
  rw [List.get?_eq_get hi, List.get?_eq_get hj] at h ⊢
  simpa using h

theorem mem_positionsFrom {c : Char} :
    ∀ {start : Nat} {s : Str} {j : Nat}, j ∈ positionsFrom c start s →
      start ≤ j ∧ s.get? (j - start) = some c := by
  intro start s
  induction s generalizing start with
  | nil => intro j h; simp [positionsFrom] at h
  | cons d rest ih =>
    intro j h
    rw [positionsFrom] at h
    by_cases hd : (d == c) = true
    · rw [if_pos hd] at h
      rcases List.mem_cons.mp h with rfl | h'
      · exact ⟨le_refl j, by simp [eq_of_beq hd]⟩
      · obtain ⟨h1, h2⟩ := ih h'
        refine ⟨by omega, ?_⟩
        have hpos : 1 ≤ j - start := by omega
        rw [show j - start = (j - (start + 1)) + 1 by omega]
        simpa using h2
    · rw [if_neg hd] at h
      obtain ⟨h1, h2⟩ := ih h
      refine ⟨by omega, ?_⟩
      rw [show j - start = (j - (start + 1)) + 1 by omega]
      simpa using h2

theorem get?_of_mem_positions {b : Str} {c : Char} {j : Nat} (h : j ∈ positions b c) :
    b.get? j = some c := by
  rw [positions] at h
  obtain ⟨-, h2⟩ := mem_positionsFrom h
  simpa using h2

theorem get?_of_mem_b2j {b : Str} {c : Char} {j : Nat} (h : j ∈ b2j b c) :
    b.get? j = some c := by
  rw [b2j] at h
  split at h
  · simp at h
  · exact get?_of_mem_positions h

theorem dictGet_mem : ∀ {m : List (Nat × Nat)} {j v : Nat},
    dictGet m j = v → v ≠ 0 → (j, v) ∈ m := by
  intro m
  induction m with
  | nil =>
    intro j v h hv
    rw [dictGet] at h
    exact absurd h.symm hv
  | cons p rest ih =>
    intro j v h hv
    obtain ⟨k, w⟩ := p
    rw [dictGet] at h
    split at h
    · rename_i hk
      have : k = j := by
        have := of_decide_eq_true hk
        exact this
      subst this
      subst h
      exact List.mem_cons_self _ _
    · exact List.mem_cons_of_mem _ (ih h hv)

theorem innerLoop_inv {a b : Str} {alo ahi blo bhi : Nat} {i : Nat} {c : Char}
    (hc : a.get? i = some c) (hai : alo ≤ i) (hia : i < ahi) :
    ∀ (js : List Nat) (prev new : List (Nat × Nat)) (best : Nat × Nat × Nat),
      (∀ j ∈ js, blo ≤ j ∧ j < bhi ∧ b.get? j = some c) →
      PrevOK a b alo blo bhi i prev →
      PrevOK a b alo blo bhi (i + 1) new →
      GoodT a b alo ahi blo bhi best.1 best.2.1 best.2.2 →
      PrevOK a b alo blo bhi (i + 1) (innerLoop i prev js new best).1 ∧
        GoodT a b alo ahi blo bhi (innerLoop i prev js new best).2.1
          (innerLoop i prev js new best).2.2.1 (innerLoop i prev js new best).2.2.2 := by
  intro js
  induction js with
  | nil =>
    intro prev new best hjs hprev hnew hbest
    exact ⟨hnew, hbest⟩
  | cons j js ih =>
    intro prev new best hjs hprev hnew hbest
    obtain ⟨hjb, hjhi, hjc⟩ := hjs j (List.mem_cons_self j js)
    set k0 : Nat := (if j == 0 then 0 else dictGet prev (j - 1)) with hk0def
    have hstep : 1 ≤ k0 + 1 ∧ blo + (k0 + 1) ≤ j + 1 ∧ j < bhi ∧ alo + (k0 + 1) ≤ i + 1 ∧
        blockEq a b (i + 1 - (k0 + 1)) (j + 1 - (k0 + 1)) (k0 + 1) := by
      have hcases : k0 = 0 ∨ (j ≠ 0 ∧ (j - 1, k0) ∈ prev) := by
        by_cases hj0 : (j == 0) = true
        · left
          rw [hk0def, if_pos hj0]
        · by_cases hv : dictGet prev (j - 1) = 0
          · left
            rw [hk0def, if_neg hj0, hv]
          · right
            have hk0v : k0 = dictGet prev (j - 1) := by rw [hk0def, if_neg hj0]
            refine ⟨fun h => hj0 (by simp [h]), ?_⟩
            exact dictGet_mem hk0v.symm (by rw [← hk0v] at hv; exact hv)
      rcases hcases with hk00 | ⟨hj0, hmem⟩
      · rw [hk00]
        refine ⟨by omega, by omega, hjhi, by omega, ?_⟩
        intro u hu
        have hu0 : u = 0 := by omega
        subst hu0
        rw [show i + 1 - (0 + 1) + 0 = i by omega, show j + 1 - (0 + 1) + 0 = j by omega,
          hc, hjc]
      · obtain ⟨h1, h2, h3, h4, h5⟩ := hprev _ hmem
        have hj1 : j - 1 + 1 = j := by omega
        rw [hj1] at h2 h5
        refine ⟨by omega, by omega, hjhi, by omega, ?_⟩
        rw [show i + 1 - (k0 + 1) = i - k0 by omega, show j + 1 - (k0 + 1) = j - k0 by omega]
        apply blockEq_snoc h5
        rw [show i - k0 + k0 = i by omega, show j - k0 + k0 = j by omega, hc, hjc]
    have hbest' : GoodT a b alo ahi blo bhi
        (if best.2.2 < k0 + 1 then (i + 1 - (k0 + 1), j + 1 - (k0 + 1), k0 + 1) else best).1
        (if best.2.2 < k0 + 1 then (i + 1 - (k0 + 1), j + 1 - (k0 + 1), k0 + 1) else best).2.1
        (if best.2.2 < k0 + 1 then (i + 1 - (k0 + 1), j + 1 - (k0 + 1), k0 + 1) else
          best).2.2 := by
      obtain ⟨-, hblo, -, halo, hbeq⟩ := hstep
      split
      · dsimp only
        exact ⟨by omega, by omega, by omega, by omega, hbeq⟩
      · exact hbest
    have hnew' : PrevOK a b alo blo bhi (i + 1) ((j, k0 + 1) :: new) := by
      intro p hp
      rcases List.mem_cons.mp hp with rfl | hp'
      · exact hstep
      · exact hnew p hp'
    have hrec := ih prev ((j, k0 + 1) :: new)
      (if best.2.2 < k0 + 1 then (i + 1 - (k0 + 1), j + 1 - (k0 + 1), k0 + 1) else best)
      (fun j' hj' => hjs j' (List.mem_cons_of_mem j hj')) hprev hnew' hbest'
    exact hrec

theorem outerLoop_good {a b : Str} {b2jf : Char → List Nat}
    (hB : ∀ c j, j ∈ b2jf c → b.get? j = some c)
    {alo ahi blo bhi : Nat} (ha : ahi ≤ a.length) :
    ∀ (n r : Nat) (prev : List (Nat × Nat)) (best : Nat × Nat × Nat),
      alo ≤ r → r + n ≤ ahi →
      PrevOK a b alo blo bhi r prev →
      GoodT a b alo ahi blo bhi best.1 best.2.1 best.2.2 →
      GoodT a b alo ahi blo bhi
        (outerLoop a b2jf blo bhi (List.range' r n) prev best).1
        (outerLoop a b2jf blo bhi (List.range' r n) prev best).2.1
        (outerLoop a b2jf blo bhi (List.range' r n) prev best).2.2 := by
  intro n
  induction n with
  | zero =>
    intro r prev best h1 h2 hprev hbest
    exact hbest
  | succ n ih =>
    intro r prev best h1 h2 hprev hbest
    have hr : r < a.length := by omega
    have hc : a.get? r = some (a.getD r ' ') := by
      rw [List.getD_eq_get?, List.get?_eq_get hr]
      rfl
    have hjs : ∀ j ∈ ((b2jf (a.getD r ' ')).filter fun j => decide (blo ≤ j)).filter
        (fun j => decide (j < bhi)),
        blo ≤ j ∧ j < bhi ∧ b.get? j = some (a.getD r ' ') := by
      intro j hj
      obtain ⟨hj1, hj2⟩ := List.mem_filter.mp hj
      obtain ⟨hj3, hj4⟩ := List.mem_filter.mp hj1
      exact ⟨of_decide_eq_true hj4, of_decide_eq_true hj2, hB _ _ hj3⟩
    obtain ⟨hnewOK, hbestOK⟩ := innerLoop_inv hc h1 (by omega) _ prev [] best hjs hprev
      (fun p hp => absurd hp (List.not_mem_nil p)) hbest
    have hrange : List.range' r (n + 1) = r :: List.range' (r + 1) n := List.range'_succ r n 1
    rw [hrange]
    have := ih (r + 1) (innerLoop r prev (((b2jf (a.getD r ' ')).filter
        fun j => decide (blo ≤ j)).filter fun j => decide (j < bhi)) [] best).1
      (innerLoop r prev (((b2jf (a.getD r ' ')).filter
        fun j => decide (blo ≤ j)).filter fun j => decide (j < bhi)) [] best).2
      (by omega) (by omega) hnewOK hbestOK
    exact this

theorem extLeft_good {a b : Str} {alo ahi blo bhi : Nat} (junkTest : Char → Bool)
    (ha : ahi ≤ a.length) (hb : bhi ≤ b.length) :
    ∀ (bi bj bs : Nat), GoodT a b alo ahi blo bhi bi bj bs →
      GoodT a b alo ahi blo bhi (extLeft a b alo blo junkTest bi bj bs).1
        (extLeft a b alo blo junkTest bi bj bs).2.1
        (extLeft a b alo blo junkTest bi bj bs).2.2
  | 0, bj, bs, hg => hg
  | bi + 1, bj, bs, hg => by
    rw [extLeft]
    split
    · rename_i hcond
      obtain ⟨h1, h2, h3, h4⟩ := hcond
      obtain ⟨g1, g2, g3, g4, g5⟩ := hg
      apply extLeft_good junkTest ha hb
      refine ⟨by omega, by omega, by omega, by omega, ?_⟩
      apply blockEq_cons
      · have hbi : bi < a.length := by omega
        have hbj : bj - 1 < b.length := by omega
        have := get?_eq_of_getD_eq hbi hbj (by simpa using h4)
        exact this
      · rw [show bi + 1 = bi + 1 by rfl, show bj - 1 + 1 = bj by omega]
        exact g5
    · exact hg

theorem extRightAux_good {a b : Str} {alo ahi blo bhi : Nat} (junkTest : Char → Bool)
    (ha : ahi ≤ a.length) (hb : bhi ≤ b.length) {bi bj : Nat} :
    ∀ (d bs : Nat), GoodT a b alo ahi blo bhi bi bj bs →
      GoodT a b alo ahi blo bhi bi bj (extRightAux a b ahi bhi junkTest bi bj d bs)
  | 0, bs, hg => hg
  | d + 1, bs, hg => by
    rw [extRightAux]
    split
    · rename_i hcond
      obtain ⟨h1, h2, h3, h4⟩ := hcond
      obtain ⟨g1, g2, g3, g4, g5⟩ := hg
      apply extRightAux_good junkTest ha hb
      refine ⟨g1, g2, by omega, by omega, ?_⟩
      apply blockEq_snoc g5
      exact get?_eq_of_getD_eq (by omega) (by omega) h4
    · exact hg

theorem extRight_good {a b : Str} {alo ahi blo bhi : Nat} (junkTest : Char → Bool)
    (ha : ahi ≤ a.length) (hb : bhi ≤ b.length) {bi bj bs : Nat}
    (hg : GoodT a b alo ahi blo bhi bi bj bs) :
    GoodT a b alo ahi blo bhi bi bj (extRight a b ahi bhi junkTest bi bj bs) :=
  extRightAux_good junkTest ha hb _ _ hg

theorem find_longest_match_good {a b : Str} {b2jf : Char → List Nat}
    (hB : ∀ c j, j ∈ b2jf c → b.get? j = some c)
    {alo ahi blo bhi : Nat} (ha : ahi ≤ a.length) (hb : bhi ≤ b.length)
    (hab : alo ≤ ahi) (hbb : blo ≤ bhi) :
    GoodT a b alo ahi blo bhi (find_longest_match a b b2jf alo ahi blo bhi).1
      (find_longest_match a b b2jf alo ahi blo bhi).2.1
      (find_longest_match a b b2jf alo ahi blo bhi).2.2 := by
  have h0 : GoodT a b alo ahi blo bhi alo blo 0 :=
    ⟨le_refl _, le_refl _, by omega, by omega, blockEq_zero a b alo blo⟩
  have hbest := outerLoop_good hB ha (ahi - alo) alo [] (alo, blo, 0) (le_refl _)
    (by omega) (fun p hp => absurd hp (List.not_mem_nil p)) h0
  have he1 := extLeft_good (fun c => !bjunk c) ha hb _ _ _ hbest
  have hs2 := extRight_good (fun c => !bjunk c) ha hb he1
  have he3 := extLeft_good bjunk ha hb _ _ _ hs2
  have hs4 := extRight_good bjunk ha hb he3
  exact hs4

theorem slice_all (s : Str) : slice s 0 s.length = s := by
  simp [slice]

theorem slice_length {s : Str} {lo n : Nat} (h : lo + n ≤ s.length) :
    (slice s lo (lo + n)).length = n := by
  rw [slice, List.length_take, List.length_drop]
  omega

theorem slice_append {s : Str} {lo mid hi : Nat} (h1 : lo ≤ mid) (h2 : mid ≤ hi) :
    slice s lo hi = slice s lo mid ++ slice s mid hi := by
  rw [slice, slice, slice, show hi - lo = (mid - lo) + (hi - mid) by omega, List.take_add]
  congr 2
  rw [List.drop_drop, show lo + (mid - lo) = mid by omega]

theorem slice_eq_of_blockEq {a b : Str} {i j k : Nat} (h : blockEq a b i j k)
    (hik : i + k ≤ a.length) (hjk : j + k ≤ b.length) :
    slice a i (i + k) = slice b j (j + k) := by
  apply List.ext_get?
  intro u
  rw [slice, slice, show i + k - i = k by omega, show j + k - j = k by omega]
  by_cases hu : u < k
  · rw [List.get?_take hu, List.get?_take hu, List.get?_drop, List.get?_drop]
    exact h u hu
  · have hlen1 : ((a.drop i).take k).length = k := by
      rw [List.length_take, List.length_drop]
      omega
    have hlen2 : ((b.drop j).take k).length = k := by
      rw [List.length_take, List.length_drop]
      omega
    rw [List.get?_eq_none.mpr (by omega), List.get?_eq_none.mpr (by omega)]

theorem inter_add_inter_le (s1 s2 u1 u2 : Multiset Char) :
    (s1 ∩ u1) + (s2 ∩ u2) ≤ (s1 + s2) ∩ (u1 + u2) := by
  rw [Multiset.le_iff_count]
  intro c
  simp only [Multiset.count_add, Multiset.count_inter]
  omega

theorem multiset_inter_self (s : Multiset Char) : s ∩ s = s := by
  apply Multiset.ext.mpr
  intro c
  rw [Multiset.count_inter, Nat.min_self]

theorem interCard_concat (x1 mid x2 y1 y2 : Str) :
    interCard x1 y1 + mid.length + interCard x2 y2 ≤
      interCard (x1 ++ mid ++ x2) (y1 ++ mid ++ y2) := by
  rw [interCard, interCard, interCard]
  have hco : ∀ (u v w : Str), ((u ++ v ++ w : List Char) : Multiset Char) =
      (u : Multiset Char) + (v : Multiset Char) + (w : Multiset Char) := by
    intro u v w
    rw [← Multiset.coe_add, ← Multiset.coe_add]
  rw [hco, hco]
  have hle : ((x1 : Multiset Char) ∩ (y1 : Multiset Char) + (mid : Multiset Char) +
      (x2 : Multiset Char) ∩ (y2 : Multiset Char)) ≤
      ((x1 : Multiset Char) + (mid : Multiset Char) + (x2 : Multiset Char)) ∩
        ((y1 : Multiset Char) + (mid : Multiset Char) + (y2 : Multiset Char)) := by
    have h1 := inter_add_inter_le (x1 : Multiset Char) (mid : Multiset Char)
      (y1 : Multiset Char) (mid : Multiset Char)
    rw [multiset_inter_self] at h1
    have h2 := inter_add_inter_le ((x1 : Multiset Char) + (mid : Multiset Char))
      (x2 : Multiset Char) ((y1 : Multiset Char) + (mid : Multiset Char)) (y2 : Multiset Char)
    calc (x1 : Multiset Char) ∩ (y1 : Multiset Char) + (mid : Multiset Char) +
          (x2 : Multiset Char) ∩ (y2 : Multiset Char)
        ≤ ((x1 : Multiset Char) + (mid : Multiset Char)) ∩
            ((y1 : Multiset Char) + (mid : Multiset Char)) +
          (x2 : Multiset Char) ∩ (y2 : Multiset Char) := by
          exact add_le_add_right h1 _
      _ ≤ _ := h2
  have hcard := Multiset.card_le_card hle
  simp only [Multiset.card_add, Multiset.coe_card] at hcard
  omega

theorem matching_blocks_sum_le_interCard {a b : Str} {b2jf : Char → List Nat}
    (hB : ∀ c j, j ∈ b2jf c → b.get? j = some c) :
    ∀ (fuel alo ahi blo bhi : Nat), alo ≤ ahi → ahi ≤ a.length → blo ≤ bhi →
      bhi ≤ b.length →
      matching_blocks_sum a b b2jf fuel alo ahi blo bhi ≤
        interCard (slice a alo ahi) (slice b blo bhi)
  | 0, alo, ahi, blo, bhi, h1, h2, h3, h4 => Nat.zero_le _
  | fuel + 1, alo, ahi, blo, bhi, h1, h2, h3, h4 => by
    obtain ⟨hi, hj, hik, hjk, hbeq⟩ := find_longest_match_good hB h2 h4 h1 h3
    rw [matching_blocks_sum]
    set F := find_longest_match a b b2jf alo ahi blo bhi with hF
    by_cases hk0 : (F.2.2 == 0) = true
    · rw [if_pos hk0]
      exact Nat.zero_le _
    · rw [if_neg hk0]
      have hrecL : (if alo < F.1 ∧ blo < F.2.1 then
          matching_blocks_sum a b b2jf fuel alo F.1 blo F.2.1 else 0) ≤
          interCard (slice a alo F.1) (slice b blo F.2.1) := by
        split
        · exact matching_blocks_sum_le_interCard hB fuel alo F.1 blo F.2.1 hi (by omega)
            hj (by omega)
        · exact Nat.zero_le _
      have hrecR : (if F.1 + F.2.2 < ahi ∧ F.2.1 + F.2.2 < bhi then
          matching_blocks_sum a b b2jf fuel (F.1 + F.2.2) ahi (F.2.1 + F.2.2) bhi else 0) ≤
          interCard (slice a (F.1 + F.2.2) ahi) (slice b (F.2.1 + F.2.2) bhi) := by
        split
        · exact matching_blocks_sum_le_interCard hB fuel (F.1 + F.2.2) ahi (F.2.1 + F.2.2)
            bhi (by omega) h2 (by omega) h4
        · exact Nat.zero_le _
      have hmidlen : (slice a F.1 (F.1 + F.2.2)).length = F.2.2 :=
        slice_length (by omega)
      have hmideq : slice a F.1 (F.1 + F.2.2) = slice b F.2.1 (F.2.1 + F.2.2) :=
        slice_eq_of_blockEq hbeq (by omega) (by omega)
      have hsplitA : slice a alo ahi =
          slice a alo F.1 ++ slice a F.1 (F.1 + F.2.2) ++ slice a (F.1 + F.2.2) ahi := by
        rw [← slice_append hi (by omega), ← slice_append (by omega) (by omega)]
      have hsplitB : slice b blo bhi =
          slice b blo F.2.1 ++ slice b F.2.1 (F.2.1 + F.2.2) ++
            slice b (F.2.1 + F.2.2) bhi := by
        rw [← slice_append hj (by omega), ← slice_append (by omega) (by omega)]
      calc (if alo < F.1 ∧ blo < F.2.1 then
              matching_blocks_sum a b b2jf fuel alo F.1 blo F.2.1 else 0) + F.2.2 +
            (if F.1 + F.2.2 < ahi ∧ F.2.1 + F.2.2 < bhi then
              matching_blocks_sum a b b2jf fuel (F.1 + F.2.2) ahi (F.2.1 + F.2.2) bhi
            else 0)
          ≤ interCard (slice a alo F.1) (slice b blo F.2.1) + F.2.2 +
            interCard (slice a (F.1 + F.2.2) ahi) (slice b (F.2.1 + F.2.2) bhi) := by
            exact add_le_add (add_le_add hrecL (le_refl _)) hrecR
        _ ≤ interCard (slice a alo ahi) (slice b blo bhi) := by
            rw [hsplitA, hsplitB, ← hmideq]
            have := interCard_concat (slice a alo F.1) (slice a F.1 (F.1 + F.2.2))
              (slice a (F.1 + F.2.2) ahi) (slice b blo F.2.1) (slice b (F.2.1 + F.2.2) bhi)
            rw [hmidlen] at this
            exact this

theorem interCard_append_singleton (p : Str) (c : Char) (b : Str) :
    interCard (p ++ [c]) b = interCard p b + (if p.count c < b.count c then 1 else 0) := by
  rw [interCard, interCard]
  have hco : ((p ++ [c] : List Char) : Multiset Char) =
      (p : Multiset Char) + (([c] : List Char) : Multiset Char) := by
    rw [← Multiset.coe_add]
  rw [hco]
  have hkey : ((p : Multiset Char) + (([c] : List Char) : Multiset Char)) ∩
      (b : Multiset Char) =
      ((p : Multiset Char) ∩ (b : Multiset Char)) +
        (if p.count c < b.count c then ({c} : Multiset Char) else 0) := by
    apply Multiset.ext.mpr
    intro d
    by_cases hlt : p.count c < b.count c
    · rw [if_pos hlt]
      by_cases hdc : d = c
      · subst hdc
        simp only [Multiset.count_add, Multiset.count_inter, Multiset.coe_singleton,
          Multiset.count_singleton, if_pos rfl, if_true, Multiset.coe_count]
        omega
      · simp only [Multiset.count_add, Multiset.count_inter, Multiset.coe_singleton,
          Multiset.count_singleton, if_neg hdc, if_true, Multiset.coe_count]
        omega
    · rw [if_neg hlt]
      by_cases hdc : d = c
      · subst hdc
        simp only [Multiset.count_add, Multiset.count_inter, Multiset.coe_singleton,
          Multiset.count_singleton, if_pos rfl, if_true, Multiset.count_zero, Multiset.coe_count]
        omega
      · simp only [Multiset.count_add, Multiset.count_inter, Multiset.coe_singleton,
          Multiset.count_singleton, if_neg hdc, if_true, Multiset.count_zero, Multiset.coe_count]
        omega
  rw [hkey, Multiset.card_add]
  split
  · rw [Multiset.card_singleton]
  · rw [Multiset.card_zero]

theorem quickLoop_spec (b : Str) :
    ∀ (rest p : Str) (avail : List (Char × Int)),
      (∀ c : Char, availGet avail c =
        if p.count c = 0 then none else some ((bcount b c : Int) - p.count c)) →
      quickLoop (bcount b) rest avail (interCard p b) = interCard (p ++ rest) b
  | [], p, avail, hav => by
    rw [quickLoop, List.append_nil]
  | c :: rest, p, avail, hav => by
    rw [quickLoop]
    have hnumb : (match availGet avail c with
        | some v => v
        | none => ((bcount b c : Nat) : Int)) = (bcount b c : Int) - p.count c := by
      rw [hav c]
      by_cases hc0 : p.count c = 0
      · rw [if_pos hc0, hc0]
        simp
      · rw [if_neg hc0]
    rw [hnumb]
    have hb0 : bcount b c = b.count c := rfl
    have hstep : (if (0 : Int) < (bcount b c : Int) - p.count c then interCard p b + 1
        else interCard p b) = interCard (p ++ [c]) b := by
      rw [interCard_append_singleton]
      split
      · rename_i hlt
        rw [if_pos (by rw [← hb0]; omega)]
      · rename_i hlt
        rw [if_neg (by rw [← hb0]; omega)]
        omega
    have havail' : ∀ d : Char, availGet ((c, (bcount b c : Int) - p.count c - 1) :: avail) d =
        if (p ++ [c]).count d = 0 then none
        else some ((bcount b d : Int) - (p ++ [c]).count d) := by
      intro d
      by_cases hdc : c = d
      · subst hdc
        rw [availGet, if_pos (beq_self_eq_true c)]
        have hcount : (p ++ [c]).count c = p.count c + 1 := by
          rw [List.count_append]
          simp
        rw [hcount, if_neg (by omega)]
        congr 1
        push_cast
        ring
      · rw [availGet, if_neg (fun h => hdc (eq_of_beq h))]
        have hcount : (p ++ [c]).count d = p.count d := by
          rw [List.count_append,
            List.count_eq_zero.mpr (fun h => hdc (List.mem_singleton.mp h).symm)]
          rfl
        rw [hcount, hav d]
    have hrec := quickLoop_spec b rest (p ++ [c])
      ((c, (bcount b c : Int) - p.count c - 1) :: avail) havail'
    rw [hstep, hrec, List.append_assoc]
    rfl

theorem quickLoop_eq (a b : Str) : quickLoop (bcount b) a [] 0 = interCard a b := by
  have h0 : interCard ([] : Str) b = 0 := by
    rw [interCard, show (([] : List Char) : Multiset Char) = 0 from rfl,
      Multiset.zero_inter, Multiset.card_zero]
  have h := quickLoop_spec b a [] [] (fun c => by
    rw [availGet]
    simp)
  rw [h0, List.nil_append] at h
  exact h

theorem interCard_le_min (s u : Str) : interCard s u ≤ min s.length u.length := by
  rw [interCard]
  refine Nat.le_min.mpr ⟨?_, ?_⟩
  · calc Multiset.card ((s : Multiset Char) ∩ (u : Multiset Char))
        ≤ Multiset.card (s : Multiset Char) :=
          Multiset.card_le_card (Multiset.inter_le_left _ _)
      _ = s.length := Multiset.coe_card s
  · calc Multiset.card ((s : Multiset Char) ∩ (u : Multiset Char))
        ≤ Multiset.card (u : Multiset Char) :=
          Multiset.card_le_card (Multiset.inter_le_right _ _)
      _ = u.length := Multiset.coe_card u

theorem calculate_ratio_mono {m1 m2 L : Nat} (h : m1 ≤ m2) :
    calculate_ratio m1 L ≤ calculate_ratio m2 L := by
  rw [calculate_ratio, calculate_ratio]
  split
  · exact le_refl _
  · rename_i hL
    have hLpos : (0 : ℚ) < (L : ℚ) := by
      have : L ≠ 0 := by simpa using hL
      exact_mod_cast Nat.pos_of_ne_zero this
    apply div_le_div_of_nonneg_right ?_ hLpos.le
    have hc : (m1 : ℚ) ≤ (m2 : ℚ) := Nat.cast_le.mpr h
    linarith

theorem ratio_le_quick_ratio (a b : Str) : ratio a b ≤ quick_ratio a b := by
  rw [ratio, ratio_with, quick_ratio, quickLoop_eq]
  apply calculate_ratio_mono
  have h := matching_blocks_sum_le_interCard (fun c j => get?_of_mem_b2j)
    (a.length + b.length + 1) 0 a.length 0 b.length (Nat.zero_le _) (le_refl _)
    (Nat.zero_le _) (le_refl _)
  rw [slice_all, slice_all] at h
  exact h

theorem quick_ratio_le_real_quick_ratio (a b : Str) : quick_ratio a b ≤ real_quick_ratio a b := by
  rw [quick_ratio, real_quick_ratio, quickLoop_eq]
  exact calculate_ratio_mono (interCard_le_min a b)

theorem ratio_le_real_quick_ratio (a b : Str) : ratio a b ≤ real_quick_ratio a b :=
  le_trans (ratio_le_quick_ratio a b) (quick_ratio_le_real_quick_ratio a b)

/-- C3: the filtering step of `get_close_matches` keeps a candidate `x`
(with its score) iff its similarity ratio against the normalized user
question is at least the threshold — a candidate whose ratio equals the
threshold is kept, and exactly the candidates with ratio strictly below
the threshold are discarded.  The two extra quick-ratio gates of the
library are redundant because they are upper bounds on the ratio. -/
theorem C3_cutoff_keeps_iff (word : Str) (poss : List Str) (t : ℚ) (r : ℚ) (x : Str) :
    (r, x) ∈ closePool word poss t ↔ x ∈ poss ∧ r = ratio x word ∧ t ≤ r := by
  constructor
  · intro h
    obtain ⟨h1, h2, -, -, h5⟩ := mem_closePool h
    dsimp only at h1 h2 h5
    exact ⟨h1, h2, by rw [h2]; exact h5⟩
  · rintro ⟨h1, rfl, h3⟩
    exact mem_closePool_intro h1 (le_trans h3 (ratio_le_real_quick_ratio x word))
      (le_trans h3 (ratio_le_quick_ratio x word)) h3

/-- C4, amended: when `find_best_match` returns a match, the returned
catalog question is a qualifying candidate whose pair
`(ratio, normalized text)` is maximal in the Python tuple order over all
qualifying candidates: ties in the top ratio are broken towards the
lexicographically greatest normalized string (by `heapq.nlargest` on the
`(score, candidate)` pairs), not towards catalog order. -/
theorem C4_tiebreak_lexicographic (user : Str) (t : ℚ) (oq a : Str)
    (h : find_best_match user t = (some oq, some a)) :
    oq ∈ questions ∧
      t ≤ ratio (normalize_text oq) (normalize_text user) ∧
      ∀ x ∈ questions.map normalize_text,
        t ≤ ratio x (normalize_text user) →
          tupleLt (ratio (normalize_text oq) (normalize_text user), normalize_text oq)
            (ratio x (normalize_text user), x) = false := by
  have hne : closePool (normalize_text user) (questions.map normalize_text) t ≠ [] := by
    intro hnil
    rw [find_best_match, get_close_matches1, hnil] at h
    simp [pymax1, resolve_match] at h
  obtain ⟨y, hy⟩ := pymax1_isSome hne
  obtain ⟨hmem, hmax⟩ := pymax1_spec hy
  obtain ⟨hposs, hyr, -, -, hy3⟩ := mem_closePool hmem
  obtain ⟨oq', a', hfb, hnorm, hoq'q, hqa⟩ := fbm_of_pool hy
  have heq : (some oq, some a) = ((some oq' : Option Str), (some a' : Option Str)) :=
    h.symm.trans hfb
  have hoq : oq' = oq := by
    have := congrArg Prod.fst heq
    simpa using this.symm
  subst hoq
  rw [← hnorm] at hyr hy3
  refine ⟨hoq'q, hy3, ?_⟩
  intro x hx hxr
  have hpool : (ratio x (normalize_text user), x) ∈
      closePool (normalize_text user) (questions.map normalize_text) t :=
    mem_closePool_intro hx (le_trans hxr (ratio_le_real_quick_ratio x _))
      (le_trans hxr (ratio_le_quick_ratio x _)) hxr
  have hm := hmax _ hpool
  rw [← hyr, hnorm, Prod.mk.eta]
  exact hm

set_option maxRecDepth 100000 in
set_option maxHeartbeats 16000000 in
unseal Rat.mul Rat.inv Rat.add Rat.sub in
/-- Witness for `C4_tiebreak_lexicographic` at the tied query
`"using thoughtful"`. -/
theorem C4_tiebreak_lexicographic_witness :
    (("What are the benefits of using Thoughtful AI's agents?").toList : Str) ∈ questions ∧
      (2 / 5 : ℚ) ≤
        ratio
          (normalize_text
            (("What are the benefits of using Thoughtful AI's agents?").toList))
          (normalize_text (("using thoughtful").toList)) ∧
      ∀ x ∈ questions.map normalize_text,
        (2 / 5 : ℚ) ≤ ratio x (normalize_text (("using thoughtful").toList)) →
          tupleLt
            (ratio
              (normalize_text
                (("What are the benefits of using Thoughtful AI's agents?").toList))
              (normalize_text (("using thoughtful").toList)),
              normalize_text
                (("What are the benefits of using Thoughtful AI's agents?").toList))
            (ratio x (normalize_text (("using thoughtful").toList)), x) = false :=
  C4_tiebreak_lexicographic (("using thoughtful").toList) (2 / 5)
    (("What are the benefits of using Thoughtful AI's agents?").toList)
    (("Using Thoughtful AI's Agents can significantly reduce administrative costs, improve operational efficiency, and reduce errors in critical processes like claims management and payment posting.").toList)
    (by decide)

end ThoughtfulAI

